import Mathlib

/-!
Verification of the `num-derive` code generator (src/lib.rs).

The crate is a compile-time code generator: given the syntax tree of an
annotated type declaration, the two entry points `from_primitive` and
`to_primitive` validate that the type is an enumeration whose variants are
all unit variants, and emit an implementation of the `FromPrimitive`
(resp. `ToPrimitive`) conversion capability, wrapped in a uniquely named
private constant scope.

This file gives a shallow embedding:
* the input syntax tree is `DeriveInput` (mirroring `syn::DeriveInput`:
  attributes, visibility, identifier, generics, data);
* a panic in the Rust code becomes `Except.error msg` carrying the exact
  panic message; success carries a record of the emitted implementation;
* the emitted `from_i64` body (a chain of `if n == Name::Ident as i64
  { Some(Name::Ident) } else ...` clauses ending in `{ None }`) is embedded
  as the clause list `FromPrimGen.clauses` together with its evaluator
  `evalClauses`; the value `Name::Ident as i64` of each clause is the
  variant's discriminant as resolved by the host language (`resolveDiscs`);
* the emitted `to_i64` body (`Some(match *self { Name::Ident =>
  Name::Ident as i64, ... })`, or the bare empty match for a zero-variant
  enumeration) is embedded as the arm list `ToPrimGen.arms`; a value of the
  enumeration is an index into that list, so a zero-variant enumeration has
  no values, matching uninhabitedness;
* the primitive casts `n as i64` (on `u64`) and `x as u64` (on `i64`) are
  the two's-complement reinterpretations `u64_as_i64` and `i64_as_u64`.
-/

/-- The shape of an enumeration variant's payload, mirroring `syn::Fields`:
`unit` carries no data, `unnamed` is a tuple variant, `named` a struct
variant. -/
inductive FieldKind where
  | unit
  | unnamed
  | named
deriving DecidableEq, Repr

/-- One enumeration variant as seen by the generator: its identifier, the
shape of its payload, and the value of its explicit discriminant expression
when one is declared. -/
structure Variant where
  ident : String
  fields : FieldKind
  disc : Option Int
deriving DecidableEq, Repr

/-- The body of a type declaration, mirroring `syn::Data`: only the
enumeration case carries the data the generators inspect (the ordered
variant list); struct and union bodies are rejected before their fields
are ever read, so we do not model their fields. -/
inductive Data where
  | enumData (variants : List Variant)
  | structData
  | unionData
deriving DecidableEq, Repr

/-- The parsed derive input, mirroring `syn::DeriveInput`.  The generators
read only `ident` and `data`; attributes, visibility and generics are
carried but ignored by them. -/
structure DeriveInput where
  attrs : List String
  vis : String
  ident : String
  generics : List String
  data : Data
deriving DecidableEq, Repr

/-- ASCII uppercasing of a string, modelling `str::to_uppercase` on the
ASCII identifiers the generator handles. -/
def toUpperAscii (s : String) : String :=
  ⟨s.data.map Char.toUpper⟩

/-- The identifier of the private wrapping constant produced by
`dummy_const_trick`: `_IMPL_NUM_{TRAIT}_FOR_{NAME}` with both parts
uppercased (the source spells the trait parts "FromPrimative" and
"ToPrimative"). -/
def dummy_const_name (trait_ : String) (name : String) : String :=
  "_IMPL_NUM_" ++ toUpperAscii trait_ ++ "_FOR_" ++ toUpperAscii name

/-- The panic message of `from_primitive` on a non-enumeration input. -/
def fromNotEnumMsg (name : String) : String :=
  "`FromPrimitive` can be applied only to the enums, " ++ name ++ " is not an enum"

/-- The panic message of `from_primitive` on a data-carrying variant. -/
def fromNonUnitMsg (name ident : String) : String :=
  "`FromPrimitive` can be applied only to unitary enums, " ++ name ++ "::" ++
    ident ++ " is either struct or tuple"

/-- The panic message of `to_primitive` on a non-enumeration input. -/
def toNotEnumMsg (name : String) : String :=
  "`ToPrimitive` can be applied only to the enums, " ++ name ++ " is not an enum"

/-- The panic message of `to_primitive` on a data-carrying variant. -/
def toNonUnitMsg (name ident : String) : String :=
  "`ToPrimitive` can be applied only to unitary enums, " ++ name ++ "::" ++
    ident ++ " is either struct or tuple"

/-- Modelled from the spec: the host language's discriminant resolution,
which is what the emitted `Name::Ident as i64` expressions evaluate to.
This resolution is performed by the host compiler, not by code in this
repository; per the spec, a variant's discriminant is "either the explicit
value if present, or one greater than the previous variant's resolved value
(starting at 0 for the first variant)".  `next` is the value the next
implicit discriminant would take. -/
def resolveDiscs : List Variant → Int → List Int
  | [], _ => []
  | v :: rest, next =>
    match v.disc with
    | some d => d :: resolveDiscs rest (d + 1)
    | none => next :: resolveDiscs rest (next + 1)

/-- The per-variant loop of `from_primitive`: walks the variants in
declaration order, panicking (first violation wins, as the source's `map`
panics eagerly) when a variant is not a unit variant, and otherwise
collecting the variant identifiers that the emitted clauses mention. -/
def fromPrimCheck (name : String) : List Variant → Except String (List String)
  | [] => .ok []
  | v :: rest =>
    match v.fields with
    | .unit =>
      match fromPrimCheck name rest with
      | .ok tail => .ok (v.ident :: tail)
      | .error e => .error e
    | _ => .error (fromNonUnitMsg name v.ident)

/-- The implementation emitted by a successful `from_primitive` run:
the name of the wrapping constant, the name bound to the `from_i64`
parameter (`"n"`, or `"_"` when there are no clauses so nothing references
the candidate variable), and the clause chain — clause `(ident, d)` stands
for `if n == Name::ident as i64 { Some(Name::ident) }`, with `d` the
resolved value of `Name::ident as i64`. -/
structure FromPrimGen where
  dummyConst : String
  paramName : String
  clauses : List (String × Int)
deriving DecidableEq, Repr

/-- The `from_primitive` entry point: rejects non-enumerations naming the
type, rejects data-carrying variants naming the type and variant, and
otherwise emits the `FromPrimitive` implementation.  An error produces no
declarations at all (`Except.error` carries only the message). -/
def from_primitive (ast : DeriveInput) : Except String FromPrimGen :=
  match ast.data with
  | .structData => .error (fromNotEnumMsg ast.ident)
  | .unionData => .error (fromNotEnumMsg ast.ident)
  | .enumData variants =>
    match fromPrimCheck ast.ident variants with
    | .error e => .error e
    | .ok idents =>
      .ok { dummyConst := dummy_const_name "FromPrimative" ast.ident
            paramName := if idents.isEmpty then "_" else "n"
            clauses := idents.zip (resolveDiscs variants 0) }

/-- Evaluation of the emitted `else`-chain
`if n == d₀ { Some(V₀) } else if n == d₁ { Some(V₁) } ... else { None }`:
first clause whose discriminant equals the input wins. -/
def evalClauses (n : Int) : List (String × Int) → Option String
  | [] => none
  | c :: rest => if n = c.2 then some c.1 else evalClauses n rest

/-- Semantics of the emitted `fn from_i64(n: i64) -> Option<Self>`. -/
def from_i64 (g : FromPrimGen) (n : Int) : Option String :=
  evalClauses n g.clauses

/-- The cast `n as i64` on a `u64` value: two's-complement
reinterpretation of the 64-bit pattern. -/
def u64_as_i64 (n : Nat) : Int :=
  if n < 2 ^ 63 then (n : Int) else (n : Int) - 2 ^ 64

/-- The cast `x as u64` on an `i64` value: two's-complement
reinterpretation of the 64-bit pattern. -/
def i64_as_u64 (x : Int) : Nat :=
  (x % 2 ^ 64).toNat

/-- Semantics of the emitted `fn from_u64(n: u64) -> Option<Self>`, which
is `Self::from_i64(n as i64)`. -/
def from_u64 (g : FromPrimGen) (n : Nat) : Option String :=
  from_i64 g (u64_as_i64 n)

/-- The per-variant loop of `to_primitive`: walks the variants in
declaration order, panicking at the first non-unit variant, and otherwise
collecting the variant identifiers mentioned by the emitted match arms. -/
def toPrimCheck (name : String) : List Variant → Except String (List String)
  | [] => .ok []
  | v :: rest =>
    match v.fields with
    | .unit =>
      match toPrimCheck name rest with
      | .ok tail => .ok (v.ident :: tail)
      | .error e => .error e
    | _ => .error (toNonUnitMsg name v.ident)

/-- The implementation emitted by a successful `to_primitive` run: the
wrapping constant's name, whether the match expression is wrapped in
`Some` (it is not when there are no variants, where the bare empty match
`match *self {}` is emitted instead), and the match arms — arm
`(ident, d)` stands for `Name::ident => Name::ident as i64`, with `d` the
resolved value of `Name::ident as i64`. -/
structure ToPrimGen where
  dummyConst : String
  someWrapped : Bool
  arms : List (String × Int)
deriving DecidableEq, Repr

/-- The `to_primitive` entry point: rejects non-enumerations naming the
type, rejects data-carrying variants naming the type and variant, and
otherwise emits the `ToPrimitive` implementation. -/
def to_primitive (ast : DeriveInput) : Except String ToPrimGen :=
  match ast.data with
  | .structData => .error (toNotEnumMsg ast.ident)
  | .unionData => .error (toNotEnumMsg ast.ident)
  | .enumData variants =>
    match toPrimCheck ast.ident variants with
    | .error e => .error e
    | .ok idents =>
      .ok { dummyConst := dummy_const_name "ToPrimative" ast.ident
            someWrapped := !idents.isEmpty
            arms := idents.zip (resolveDiscs variants 0) }

/-- Semantics of the emitted `fn to_i64(&self) -> Option<i64>`.  A value
of the generated-for enumeration is an index into the arm list (the arms
are in bijection with the variants); the match selects that value's arm,
whose right-hand side is the variant's resolved discriminant, and wraps it
in `Some`.  For a zero-variant enumeration the index type is empty, so
this function has no inputs — matching the emitted exhaustive empty
match. -/
def to_i64 (g : ToPrimGen) (i : Fin g.arms.length) : Option Int :=
  some (g.arms.get i).2

/-- Semantics of the emitted `fn to_u64(&self) -> Option<u64>`, which is
`self.to_i64().map(|x| x as u64)`. -/
def to_u64 (g : ToPrimGen) (i : Fin g.arms.length) : Option Nat :=
  (to_i64 g i).map i64_as_u64

/-! ### Helper lemmas about the validation loops -/

theorem fromPrimCheck_ok (name : String) (vs : List Variant)
    (h : ∀ v ∈ vs, v.fields = FieldKind.unit) :
    fromPrimCheck name vs = .ok (vs.map Variant.ident) := by
  induction vs with
  | nil => rfl
  | cons v rest ih =>
    have hv : v.fields = FieldKind.unit := h v (List.mem_cons_self v rest)
    have hrest := ih (fun u hu => h u (List.mem_cons_of_mem v hu))
    simp [fromPrimCheck, hv, hrest]

theorem fromPrimCheck_ok_inv (name : String) (vs : List Variant) (ids : List String)
    (h : fromPrimCheck name vs = .ok ids) :
    ids = vs.map Variant.ident ∧ ∀ v ∈ vs, v.fields = FieldKind.unit := by
  induction vs generalizing ids with
  | nil =>
    simp only [fromPrimCheck] at h
    cases h
    simp
  | cons v rest ih =>
    simp only [fromPrimCheck] at h
    cases hf : v.fields with
    | unit =>
      rw [hf] at h
      cases hr : fromPrimCheck name rest with
      | ok tail =>
        rw [hr] at h
        cases h
        obtain ⟨htail, hunit⟩ := ih tail hr
        subst htail
        refine ⟨rfl, ?_⟩
        intro u hu
        rcases List.mem_cons.mp hu with h' | h'
        · subst h'; exact hf
        · exact hunit u h'
      | error e => rw [hr] at h; cases h
    | unnamed => rw [hf] at h; cases h
    | named => rw [hf] at h; cases h

theorem fromPrimCheck_error_first (name : String) (vs : List Variant) (k : Nat) (v : Variant)
    (hk : vs[k]? = some v) (hv : v.fields ≠ FieldKind.unit)
    (hbefore : ∀ j u, j < k → vs[j]? = some u → u.fields = FieldKind.unit) :
    fromPrimCheck name vs = .error (fromNonUnitMsg name v.ident) := by
  induction vs generalizing k with
  | nil => simp at hk
  | cons w rest ih =>
    cases k with
    | zero =>
      rw [List.getElem?_cons_zero] at hk
      cases hk
      cases hf : v.fields with
      | unit => exact absurd hf hv
      | unnamed => simp [fromPrimCheck, hf]
      | named => simp [fromPrimCheck, hf]
    | succ j =>
      have hw : w.fields = FieldKind.unit :=
        hbefore 0 w (Nat.succ_pos j) List.getElem?_cons_zero
      rw [List.getElem?_cons_succ] at hk
      have hrest := ih j hk (fun j' u hj' hj'u =>
        hbefore (j' + 1) u (Nat.succ_lt_succ hj')
          (by rw [List.getElem?_cons_succ]; exact hj'u))
      simp [fromPrimCheck, hw, hrest]

theorem toPrimCheck_ok (name : String) (vs : List Variant)
    (h : ∀ v ∈ vs, v.fields = FieldKind.unit) :
    toPrimCheck name vs = .ok (vs.map Variant.ident) := by
  induction vs with
  | nil => rfl
  | cons v rest ih =>
    have hv : v.fields = FieldKind.unit := h v (List.mem_cons_self v rest)
    have hrest := ih (fun u hu => h u (List.mem_cons_of_mem v hu))
    simp [toPrimCheck, hv, hrest]

theorem toPrimCheck_ok_inv (name : String) (vs : List Variant) (ids : List String)
    (h : toPrimCheck name vs = .ok ids) :
    ids = vs.map Variant.ident ∧ ∀ v ∈ vs, v.fields = FieldKind.unit := by
  induction vs generalizing ids with
  | nil =>
    simp only [toPrimCheck] at h
    cases h
    simp
  | cons v rest ih =>
    simp only [toPrimCheck] at h
    cases hf : v.fields with
    | unit =>
      rw [hf] at h
      cases hr : toPrimCheck name rest with
      | ok tail =>
        rw [hr] at h
        cases h
        obtain ⟨htail, hunit⟩ := ih tail hr
        subst htail
        refine ⟨rfl, ?_⟩
        intro u hu
        rcases List.mem_cons.mp hu with h' | h'
        · subst h'; exact hf
        · exact hunit u h'
      | error e => rw [hr] at h; cases h
    | unnamed => rw [hf] at h; cases h
    | named => rw [hf] at h; cases h

theorem toPrimCheck_error_first (name : String) (vs : List Variant) (k : Nat) (v : Variant)
    (hk : vs[k]? = some v) (hv : v.fields ≠ FieldKind.unit)
    (hbefore : ∀ j u, j < k → vs[j]? = some u → u.fields = FieldKind.unit) :
    toPrimCheck name vs = .error (toNonUnitMsg name v.ident) := by
  induction vs generalizing k with
  | nil => simp at hk
  | cons w rest ih =>
    cases k with
    | zero =>
      rw [List.getElem?_cons_zero] at hk
      cases hk
      cases hf : v.fields with
      | unit => exact absurd hf hv
      | unnamed => simp [toPrimCheck, hf]
      | named => simp [toPrimCheck, hf]
    | succ j =>
      have hw : w.fields = FieldKind.unit :=
        hbefore 0 w (Nat.succ_pos j) List.getElem?_cons_zero
      rw [List.getElem?_cons_succ] at hk
      have hrest := ih j hk (fun j' u hj' hj'u =>
        hbefore (j' + 1) u (Nat.succ_lt_succ hj')
          (by rw [List.getElem?_cons_succ]; exact hj'u))
      simp [toPrimCheck, hw, hrest]

/-! ### Helper lemmas about discriminant resolution -/

theorem resolveDiscs_cons (v : Variant) (rest : List Variant) (next : Int) :
    resolveDiscs (v :: rest) next =
      v.disc.getD next :: resolveDiscs rest (v.disc.getD next + 1) := by
  cases hd : v.disc <;> simp [resolveDiscs, hd]

theorem resolveDiscs_length (vs : List Variant) (next : Int) :
    (resolveDiscs vs next).length = vs.length := by
  induction vs generalizing next with
  | nil => rfl
  | cons v rest ih => rw [resolveDiscs_cons]; simp [ih]

theorem resolveDiscs_explicit (vs : List Variant) (next : Int) (i : Nat) (v : Variant) (d : Int)
    (hv : vs[i]? = some v) (hd : v.disc = some d) :
    (resolveDiscs vs next)[i]? = some d := by
  induction vs generalizing next i with
  | nil => simp at hv
  | cons w rest ih =>
    rw [resolveDiscs_cons]
    cases i with
    | zero =>
      rw [List.getElem?_cons_zero] at hv
      cases hv
      simp [hd]
    | succ j =>
      rw [List.getElem?_cons_succ] at hv
      rw [List.getElem?_cons_succ]
      exact ih _ j hv

theorem resolveDiscs_implicit_zero (vs : List Variant) (next : Int) (v : Variant)
    (hv : vs[0]? = some v) (hd : v.disc = none) :
    (resolveDiscs vs next)[0]? = some next := by
  cases vs with
  | nil => simp at hv
  | cons w rest =>
    rw [List.getElem?_cons_zero] at hv
    cases hv
    rw [resolveDiscs_cons]
    simp [hd]

theorem resolveDiscs_implicit_succ (vs : List Variant) (next : Int) (j : Nat)
    (v : Variant) (dp : Int)
    (hv : vs[j + 1]? = some v) (hd : v.disc = none)
    (hp : (resolveDiscs vs next)[j]? = some dp) :
    (resolveDiscs vs next)[j + 1]? = some (dp + 1) := by
  induction vs generalizing next j with
  | nil => simp at hv
  | cons w rest ih =>
    rw [resolveDiscs_cons] at hp ⊢
    rw [List.getElem?_cons_succ] at hv ⊢
    cases j with
    | zero =>
      rw [List.getElem?_cons_zero] at hp
      cases hp
      exact resolveDiscs_implicit_zero rest _ v hv hd
    | succ j' =>
      rw [List.getElem?_cons_succ] at hp
      exact ih _ j' hv hp

theorem resolveDiscs_all_implicit (vs : List Variant) (next : Int)
    (h : ∀ v ∈ vs, v.disc = none) (i : Nat) (hi : i < vs.length) :
    (resolveDiscs vs next)[i]? = some (next + i) := by
  induction vs generalizing next i with
  | nil => exact absurd hi (by simp)
  | cons w rest ih =>
    have hw : w.disc = none := h w (List.mem_cons_self w rest)
    rw [resolveDiscs_cons, hw]
    cases i with
    | zero => simp
    | succ j =>
      rw [List.getElem?_cons_succ]
      have := ih (Option.getD none next + 1)
        (fun u hu => h u (List.mem_cons_of_mem w hu)) j
        (by simpa using Nat.lt_of_succ_lt_succ hi)
      rw [this]
      simp only [Option.getD_none]
      congr 1
      push_cast
      ring

/-! ### Helper lemmas about clause-chain evaluation -/

theorem evalClauses_eq_none_iff (n : Int) (cs : List (String × Int)) :
    evalClauses n cs = none ↔ ∀ c ∈ cs, c.2 ≠ n := by
  induction cs with
  | nil => simp [evalClauses]
  | cons c rest ih =>
    by_cases hn : n = c.2
    · simp only [evalClauses, if_pos hn]
      constructor
      · intro h; cases h
      · intro h
        exact absurd hn.symm (h c (List.mem_cons_self c rest))
    · simp only [evalClauses, if_neg hn, ih, List.mem_cons]
      constructor
      · intro h u hu
        rcases hu with h' | h'
        · subst h'; exact fun he => hn he.symm
        · exact h u h'
      · intro h u hu
        exact h u (Or.inr hu)

theorem evalClauses_eq_some_iff (n : Int) (cs : List (String × Int)) (s : String) :
    evalClauses n cs = some s ↔
      ∃ (i : Nat) (c : String × Int), cs[i]? = some c ∧ c.2 = n ∧ c.1 = s ∧
        ∀ (j : Nat) (c' : String × Int), j < i → cs[j]? = some c' → c'.2 ≠ n := by
  induction cs with
  | nil => simp [evalClauses]
  | cons c rest ih =>
    by_cases hn : n = c.2
    · simp only [evalClauses, if_pos hn, Option.some.injEq]
      constructor
      · intro h
        exact ⟨0, c, List.getElem?_cons_zero, hn.symm, h,
          fun j c' hj _ => absurd hj (Nat.not_lt_zero j)⟩
      · rintro ⟨i, ci, hci, hc2, hc1, hfirst⟩
        cases i with
        | zero =>
          rw [List.getElem?_cons_zero] at hci
          cases hci
          exact hc1
        | succ j =>
          exact absurd hn.symm
            (hfirst 0 c (Nat.succ_pos j) List.getElem?_cons_zero)
    · simp only [evalClauses, if_neg hn, ih]
      constructor
      · rintro ⟨i, ci, hci, hc2, hc1, hfirst⟩
        refine ⟨i + 1, ci, ?_, hc2, hc1, ?_⟩
        · rw [List.getElem?_cons_succ]; exact hci
        · intro j c' hj hj'
          cases j with
          | zero =>
            rw [List.getElem?_cons_zero] at hj'
            cases hj'
            exact fun he => hn he.symm
          | succ j' =>
            rw [List.getElem?_cons_succ] at hj'
            exact hfirst j' c' (Nat.lt_of_succ_lt_succ hj) hj'
      · rintro ⟨i, ci, hci, hc2, hc1, hfirst⟩
        cases i with
        | zero =>
          rw [List.getElem?_cons_zero] at hci
          cases hci
          exact absurd hc2.symm hn
        | succ j =>
          rw [List.getElem?_cons_succ] at hci
          refine ⟨j, ci, hci, hc2, hc1, ?_⟩
          intro j' c' hj' hj''
          refine hfirst (j' + 1) c' (Nat.succ_lt_succ hj') ?_
          rw [List.getElem?_cons_succ]
          exact hj''

/-! ### Helper lemmas about the wrapping-constant identifier -/

theorem string_append_right_inj (p a b : String) : p ++ a = p ++ b ↔ a = b := by
  constructor
  · intro h
    have hd := congrArg String.data h
    rw [String.data_append, String.data_append] at hd
    have hd' := List.append_cancel_left hd
    cases a
    cases b
    cases hd'
    rfl
  · intro h
    rw [h]

theorem fromPrefix_ne_toPrefix (a b : String) :
    "_IMPL_NUM_FROMPRIMATIVE_FOR_" ++ a ≠ "_IMPL_NUM_TOPRIMATIVE_FOR_" ++ b := by
  intro h
  have hd := congrArg String.data h
  rw [String.data_append, String.data_append] at hd
  have h10 := congrArg (fun l : List Char => l[10]?) hd
  simp only at h10
  rw [List.getElem?_append_left (by decide), List.getElem?_append_left (by decide)] at h10
  exact absurd h10 (by decide)

theorem dummy_const_name_from (n : String) :
    dummy_const_name "FromPrimative" n =
      "_IMPL_NUM_FROMPRIMATIVE_FOR_" ++ toUpperAscii n := by
  show ("_IMPL_NUM_" ++ toUpperAscii "FromPrimative" ++ "_FOR_") ++ toUpperAscii n = _
  congr 1

theorem dummy_const_name_to (n : String) :
    dummy_const_name "ToPrimative" n =
      "_IMPL_NUM_TOPRIMATIVE_FOR_" ++ toUpperAscii n := by
  show ("_IMPL_NUM_" ++ toUpperAscii "ToPrimative" ++ "_FOR_") ++ toUpperAscii n = _
  congr 1

/-! ### Concrete example inputs -/

/-- The documentation example `enum Color { Red, Blue, Green = 42 }`. -/
def colorInput : DeriveInput :=
  ⟨[], "", "Color", [],
    .enumData [⟨"Red", .unit, none⟩, ⟨"Blue", .unit, none⟩, ⟨"Green", .unit, some 42⟩]⟩

/-- The implementation `from_primitive` emits for `colorInput`. -/
def colorFrom : FromPrimGen :=
  ⟨"_IMPL_NUM_FROMPRIMATIVE_FOR_COLOR", "n", [("Red", 0), ("Blue", 1), ("Green", 42)]⟩

/-- The implementation `to_primitive` emits for `colorInput`. -/
def colorTo : ToPrimGen :=
  ⟨"_IMPL_NUM_TOPRIMATIVE_FOR_COLOR", true, [("Red", 0), ("Blue", 1), ("Green", 42)]⟩

/-- The value `Color::Green` as an index into `colorTo`'s match arms. -/
def colorGreenIdx : Fin colorTo.arms.length := ⟨2, by decide⟩

/-- An enumeration whose two variants `A` then `B` share the explicit
discriminant `5`. -/
def dupInput : DeriveInput :=
  ⟨[], "", "Dup", [], .enumData [⟨"A", .unit, some 5⟩, ⟨"B", .unit, some 5⟩]⟩

/-- The implementation `from_primitive` emits for `dupInput`. -/
def dupFrom : FromPrimGen :=
  ⟨"_IMPL_NUM_FROMPRIMATIVE_FOR_DUP", "n", [("A", 5), ("B", 5)]⟩

/-- A two-variant enumeration with no explicit discriminants. -/
def pairInput : DeriveInput :=
  ⟨[], "", "Pair", [], .enumData [⟨"X", .unit, none⟩, ⟨"Y", .unit, none⟩]⟩

/-- The implementation `from_primitive` emits for `pairInput`. -/
def pairFrom : FromPrimGen :=
  ⟨"_IMPL_NUM_FROMPRIMATIVE_FOR_PAIR", "n", [("X", 0), ("Y", 1)]⟩

/-- The implementation `to_primitive` emits for `pairInput`. -/
def pairTo : ToPrimGen :=
  ⟨"_IMPL_NUM_TOPRIMATIVE_FOR_PAIR", true, [("X", 0), ("Y", 1)]⟩

/-- A struct input (the doc-test `struct Color { r, g, b }` case). -/
def structInput : DeriveInput :=
  ⟨[], "", "Color", [], .structData⟩

/-- The doc-test enum whose variants carry data:
`enum Color { Rgb(u8,u8,u8), Hsv(u8,u8,u8) }`. -/
def rgbInput : DeriveInput :=
  ⟨[], "", "Color", [],
    .enumData [⟨"Rgb", .unnamed, none⟩, ⟨"Hsv", .unnamed, none⟩]⟩

/-- A `ToPrimitive` implementation whose single variant has a negative
discriminant. -/
def negTo : ToPrimGen :=
  ⟨"_IMPL_NUM_TOPRIMATIVE_FOR_NEG", true, [("M", -5)]⟩

/-! ### Inversion of the entry points on successful runs -/

theorem from_primitive_ok_inv (ast : DeriveInput) (vs : List Variant) (g : FromPrimGen)
    (he : ast.data = .enumData vs) (hg : from_primitive ast = .ok g) :
    g.clauses = (vs.map Variant.ident).zip (resolveDiscs vs 0) ∧
    g.dummyConst = dummy_const_name "FromPrimative" ast.ident ∧
    g.paramName = (if vs.isEmpty then "_" else "n") ∧
    ∀ v ∈ vs, v.fields = FieldKind.unit := by
  obtain ⟨attrs, vis, name, gens, data⟩ := ast
  cases data with
  | enumData vs' =>
    cases he
    simp only [from_primitive] at hg
    cases hc : fromPrimCheck name vs with
    | error e => rw [hc] at hg; cases hg
    | ok ids =>
      rw [hc] at hg
      obtain ⟨hids, hunit⟩ := fromPrimCheck_ok_inv name vs ids hc
      subst hids
      simp only [Except.ok.injEq] at hg
      subst hg
      refine ⟨rfl, rfl, ?_, hunit⟩
      cases vs <;> rfl
  | structData => cases he
  | unionData => cases he

theorem fromPrimCheck_error_of_nonunit (name : String) (vs : List Variant)
    (h : ∃ v ∈ vs, v.fields ≠ FieldKind.unit) :
    ∃ v : Variant, v ∈ vs ∧ v.fields ≠ FieldKind.unit ∧
      fromPrimCheck name vs = .error (fromNonUnitMsg name v.ident) := by
  induction vs with
  | nil => simp at h
  | cons w rest ih =>
    cases hf : w.fields with
    | unit =>
      obtain ⟨v, hv, hnv⟩ := h
      rcases List.mem_cons.mp hv with h' | h'
      · subst h'; exact absurd hf hnv
      · obtain ⟨v', hv', hnv', herr⟩ := ih ⟨v, h', hnv⟩
        exact ⟨v', List.mem_cons_of_mem w hv', hnv',
          by simp [fromPrimCheck, hf, herr]⟩
    | unnamed =>
      exact ⟨w, List.mem_cons_self w rest, by simp [hf],
        by simp [fromPrimCheck, hf]⟩
    | named =>
      exact ⟨w, List.mem_cons_self w rest, by simp [hf],
        by simp [fromPrimCheck, hf]⟩

theorem toPrimCheck_error_of_nonunit (name : String) (vs : List Variant)
    (h : ∃ v ∈ vs, v.fields ≠ FieldKind.unit) :
    ∃ v : Variant, v ∈ vs ∧ v.fields ≠ FieldKind.unit ∧
      toPrimCheck name vs = .error (toNonUnitMsg name v.ident) := by
  induction vs with
  | nil => simp at h
  | cons w rest ih =>
    cases hf : w.fields with
    | unit =>
      obtain ⟨v, hv, hnv⟩ := h
      rcases List.mem_cons.mp hv with h' | h'
      · subst h'; exact absurd hf hnv
      · obtain ⟨v', hv', hnv', herr⟩ := ih ⟨v, h', hnv⟩
        exact ⟨v', List.mem_cons_of_mem w hv', hnv',
          by simp [toPrimCheck, hf, herr]⟩
    | unnamed =>
      exact ⟨w, List.mem_cons_self w rest, by simp [hf],
        by simp [toPrimCheck, hf]⟩
    | named =>
      exact ⟨w, List.mem_cons_self w rest, by simp [hf],
        by simp [toPrimCheck, hf]⟩

theorem evalClauses_progression (cs : List (String × Int)) (next : Int)
    (h : ∀ (j : Nat) (c : String × Int), cs[j]? = some c → c.2 = next + j)
    (i : Nat) (c : String × Int) (hc : cs[i]? = some c) :
    evalClauses (next + i) cs = some c.1 := by
  induction cs generalizing next i with
  | nil => simp at hc
  | cons c0 rest ih =>
    have h0 : c0.2 = next := by simpa using h 0 c0 List.getElem?_cons_zero
    cases i with
    | zero =>
      rw [List.getElem?_cons_zero] at hc
      cases hc
      simp [evalClauses, h0]
    | succ j =>
      rw [List.getElem?_cons_succ] at hc
      have hne : next + ((j + 1 : Nat) : Int) ≠ c0.2 := by
        rw [h0]; push_cast; omega
      have hrest := ih (next + 1)
        (fun j' c' hc' => by
          have := h (j' + 1) c' (by rw [List.getElem?_cons_succ]; exact hc')
          push_cast at this ⊢
          omega)
        j hc
      have harith : next + ((j + 1 : Nat) : Int) = next + 1 + (j : Int) := by
        push_cast
        ring
      simp only [evalClauses]
      rw [if_neg hne, harith]
      exact hrest

theorem zip_getElem?_of_both {α β : Type} (as : List α) (bs : List β) (i : Nat)
    (a : α) (b : β) (ha : as[i]? = some a) (hb : bs[i]? = some b) :
    (as.zip bs)[i]? = some (a, b) := by
  induction as generalizing bs i with
  | nil => simp at ha
  | cons a0 arest ih =>
    cases bs with
    | nil => simp at hb
    | cons b0 brest =>
      cases i with
      | zero =>
        rw [List.getElem?_cons_zero] at ha hb
        cases ha; cases hb
        rw [List.zip_cons_cons]
        exact List.getElem?_cons_zero
      | succ j =>
        rw [List.getElem?_cons_succ] at ha hb
        rw [List.zip_cons_cons, List.getElem?_cons_succ]
        exact ih brest j ha hb

theorem zip_getElem?_inv {α β : Type} (as : List α) (bs : List β) (i : Nat)
    (c : α × β) (h : (as.zip bs)[i]? = some c) :
    as[i]? = some c.1 ∧ bs[i]? = some c.2 := by
  induction as generalizing bs i with
  | nil => simp [List.zip] at h
  | cons a0 arest ih =>
    cases bs with
    | nil => simp [List.zip] at h
    | cons b0 brest =>
      rw [List.zip_cons_cons] at h
      cases i with
      | zero =>
        rw [List.getElem?_cons_zero] at h
        cases h
        exact ⟨List.getElem?_cons_zero, List.getElem?_cons_zero⟩
      | succ j =>
        rw [List.getElem?_cons_succ] at h
        rw [List.getElem?_cons_succ, List.getElem?_cons_succ]
        exact ih brest j h

theorem to_primitive_ok_inv (ast : DeriveInput) (vs : List Variant) (t : ToPrimGen)
    (he : ast.data = .enumData vs) (ht : to_primitive ast = .ok t) :
    t.arms = (vs.map Variant.ident).zip (resolveDiscs vs 0) ∧
    t.dummyConst = dummy_const_name "ToPrimative" ast.ident ∧
    t.someWrapped = !vs.isEmpty ∧
    ∀ v ∈ vs, v.fields = FieldKind.unit := by
  obtain ⟨attrs, vis, name, gens, data⟩ := ast
  cases data with
  | enumData vs' =>
    cases he
    simp only [to_primitive] at ht
    cases hc : toPrimCheck name vs with
    | error e => rw [hc] at ht; cases ht
    | ok ids =>
      rw [hc] at ht
      obtain ⟨hids, hunit⟩ := toPrimCheck_ok_inv name vs ids hc
      subst hids
      simp only [Except.ok.injEq] at ht
      subst ht
      refine ⟨rfl, rfl, ?_, hunit⟩
      cases vs <;> rfl
  | structData => cases he
  | unionData => cases he

/-! ### Claim theorems -/

/-- C1: For a validated enumeration whose variants are all unit variants,
the generated `from_i64`, applied to any signed 64-bit integer `n`, returns
`Some` of the first variant in declaration order whose resolved
discriminant equals `n`, and `None` when no variant's discriminant equals
`n`; in particular, when two variants `A` then `B` share the discriminant
`5`, `from_i64 5 = Some A` and `B` is unreachable by this conversion. -/
theorem C1_from_i64_first_match (ast : DeriveInput) (vs : List Variant)
    (g : FromPrimGen)
    (he : ast.data = .enumData vs) (hg : from_primitive ast = .ok g) (n : Int) :
    g.clauses = (vs.map Variant.ident).zip (resolveDiscs vs 0) ∧
    (∀ s : String, from_i64 g n = some s ↔
      ∃ (i : Nat) (c : String × Int), g.clauses[i]? = some c ∧ c.2 = n ∧ c.1 = s ∧
        ∀ (j : Nat) (c' : String × Int), j < i → g.clauses[j]? = some c' → c'.2 ≠ n) ∧
    (from_i64 g n = none ↔ ∀ c ∈ g.clauses, c.2 ≠ n) ∧
    (from_primitive dupInput = .ok dupFrom ∧ from_i64 dupFrom 5 = some "A" ∧
      ∀ m : Int, from_i64 dupFrom m ≠ some "B") := by
  refine ⟨(from_primitive_ok_inv ast vs g he hg).1,
    fun s => evalClauses_eq_some_iff n g.clauses s,
    evalClauses_eq_none_iff n g.clauses,
    rfl, rfl, ?_⟩
  intro m
  by_cases h : m = (5 : Int) <;>
    simp [from_i64, dupFrom, evalClauses, h]

/-- Witness for C1 at the concrete input `dupInput`. -/
theorem C1_witness :
    (from_i64 dupFrom 5 = none ↔ ∀ c ∈ dupFrom.clauses, c.2 ≠ 5) ∧
    from_i64 dupFrom 5 = some "A" :=
  ⟨(C1_from_i64_first_match dupInput
      [⟨"A", .unit, some 5⟩, ⟨"B", .unit, some 5⟩] dupFrom rfl rfl 5).2.2.1,
   (C1_from_i64_first_match dupInput
      [⟨"A", .unit, some 5⟩, ⟨"B", .unit, some 5⟩] dupFrom rfl rfl 5).2.2.2.2.1⟩

/-- C2: For every variant of a validated unit-only enumeration, the integer
value both generated conversions use for that variant is its resolved
discriminant: the explicit value if declared, otherwise one greater than
the previous variant's resolved value, starting at 0 for the first
variant; and for `Red, Blue, Green = 42`: `to_i64 Green = 42`,
`from_i64 42 = Some Green`, `from_i64 2 = None`. -/
theorem C2_resolved_discriminants (ast : DeriveInput) (vs : List Variant)
    (g : FromPrimGen) (t : ToPrimGen)
    (he : ast.data = .enumData vs)
    (hg : from_primitive ast = .ok g) (ht : to_primitive ast = .ok t) :
    (∀ (i : Nat) (v : Variant), vs[i]? = some v →
      ∃ d : Int, (resolveDiscs vs 0)[i]? = some d ∧
        g.clauses[i]? = some (v.ident, d) ∧
        t.arms[i]? = some (v.ident, d) ∧
        (∀ e : Int, v.disc = some e → d = e) ∧
        (v.disc = none → i = 0 → d = 0) ∧
        (v.disc = none → ∀ j : Nat, i = j + 1 →
          ∃ dp : Int, (resolveDiscs vs 0)[j]? = some dp ∧ d = dp + 1)) ∧
    (from_primitive colorInput = .ok colorFrom ∧
      to_primitive colorInput = .ok colorTo ∧
      to_i64 colorTo colorGreenIdx = some 42 ∧
      from_i64 colorFrom 42 = some "Green" ∧
      from_i64 colorFrom 2 = none) := by
  refine ⟨?_, rfl, rfl, rfl, rfl, rfl⟩
  intro i v hv
  have hclauses := (from_primitive_ok_inv ast vs g he hg).1
  have harms := (to_primitive_ok_inv ast vs t he ht).1
  have hident : (vs.map Variant.ident)[i]? = some v.ident := by
    rw [List.getElem?_map, hv]
    rfl
  have hi : i < vs.length := by
    by_contra hge
    rw [List.getElem?_eq_none (by omega)] at hv
    cases hv
  have hiR : i < (resolveDiscs vs 0).length := by
    rw [resolveDiscs_length]
    exact hi
  obtain ⟨d, hd⟩ : ∃ d : Int, (resolveDiscs vs 0)[i]? = some d :=
    ⟨(resolveDiscs vs 0)[i], List.getElem?_eq_getElem hiR⟩
  refine ⟨d, hd, ?_, ?_, ?_, ?_, ?_⟩
  · rw [hclauses]
    exact zip_getElem?_of_both _ _ i _ _ hident hd
  · rw [harms]
    exact zip_getElem?_of_both _ _ i _ _ hident hd
  · intro e he'
    have := resolveDiscs_explicit vs 0 i v e hv he'
    rw [this] at hd
    cases hd
    rfl
  · intro hnone h0
    subst h0
    have := resolveDiscs_implicit_zero vs 0 v hv hnone
    rw [this] at hd
    cases hd
    rfl
  · intro hnone j hj
    subst hj
    have hjR : j < (resolveDiscs vs 0).length := by omega
    obtain ⟨dp, hdp⟩ : ∃ dp : Int, (resolveDiscs vs 0)[j]? = some dp :=
      ⟨(resolveDiscs vs 0)[j], List.getElem?_eq_getElem hjR⟩
    have := resolveDiscs_implicit_succ vs 0 j v dp hv hnone hdp
    rw [this] at hd
    cases hd
    exact ⟨dp, hdp, rfl⟩

/-- Witness for C2 at the concrete input `colorInput`, variant `Green`. -/
theorem C2_witness :
    ∃ d : Int,
      (resolveDiscs [⟨"Red", .unit, none⟩, ⟨"Blue", .unit, none⟩,
        ⟨"Green", .unit, some 42⟩] 0)[2]? = some d ∧
      colorFrom.clauses[2]? = some ("Green", d) ∧
      colorTo.arms[2]? = some ("Green", d) ∧
      (∀ e : Int, (some 42 : Option Int) = some e → d = e) ∧
      ((some 42 : Option Int) = none → 2 = 0 → d = 0) ∧
      ((some 42 : Option Int) = none → ∀ j : Nat, 2 = j + 1 →
        ∃ dp : Int,
          (resolveDiscs [⟨"Red", .unit, none⟩, ⟨"Blue", .unit, none⟩,
            ⟨"Green", .unit, some 42⟩] 0)[j]? = some dp ∧ d = dp + 1) :=
  (C2_resolved_discriminants colorInput
    [⟨"Red", .unit, none⟩, ⟨"Blue", .unit, none⟩, ⟨"Green", .unit, some 42⟩]
    colorFrom colorTo rfl rfl rfl).1 2 ⟨"Green", .unit, some 42⟩ rfl

/-- C3: For any enumeration with only unit variants and no explicit
discriminants, every variant round-trips: `from_i64 (to_i64 variant_i) =
Some variant_i`. -/
theorem C3_roundtrip (ast : DeriveInput) (vs : List Variant)
    (g : FromPrimGen) (t : ToPrimGen)
    (he : ast.data = .enumData vs)
    (himp : ∀ v ∈ vs, v.disc = none)
    (hg : from_primitive ast = .ok g) (ht : to_primitive ast = .ok t)
    (i : Fin t.arms.length) :
    ∃ (d : Int) (v : Variant), to_i64 t i = some d ∧
      vs[i.val]? = some v ∧ from_i64 g d = some v.ident := by
  have hclauses := (from_primitive_ok_inv ast vs g he hg).1
  have harms := (to_primitive_ok_inv ast vs t he ht).1
  obtain ⟨c, hc, hcval⟩ :
      ∃ c : String × Int, t.arms[i.val]? = some c ∧ to_i64 t i = some c.2 :=
    ⟨t.arms.get i, List.getElem?_eq_getElem i.isLt, rfl⟩
  obtain ⟨k, hk⟩ : ∃ k : Nat, k = i.val := ⟨i.val, rfl⟩
  have hc' : ((vs.map Variant.ident).zip (resolveDiscs vs 0))[k]? = some c := by
    rw [← harms, hk]
    exact hc
  obtain ⟨hident, hdisc⟩ := zip_getElem?_inv _ _ k _ hc'
  obtain ⟨v, hv⟩ : ∃ v : Variant, vs[k]? = some v := by
    rw [List.getElem?_map] at hident
    cases hvv : vs[k]? with
    | none => rw [hvv] at hident; cases hident
    | some v => exact ⟨v, rfl⟩
  have hvl : k < vs.length := by
    by_contra hge
    rw [List.getElem?_eq_none (by omega)] at hv
    cases hv
  have hdisc' : (resolveDiscs vs 0)[k]? = some ((0 : Int) + k) :=
    resolveDiscs_all_implicit vs 0 himp k hvl
  have hc2 : c.2 = (0 : Int) + k := Option.some.inj (hdisc.symm.trans hdisc')
  have h1 : c.1 = v.ident := by
    simp only [List.getElem?_map, hv, Option.map_some'] at hident
    exact (Option.some.inj hident).symm
  refine ⟨c.2, v, hcval, by rw [← hk]; exact hv, ?_⟩
  have hprog : ∀ (j : Nat) (c' : String × Int),
      g.clauses[j]? = some c' → c'.2 = 0 + (j : Int) := by
    intro j c' hcj
    rw [hclauses] at hcj
    obtain ⟨_, hcj2⟩ := zip_getElem?_inv _ _ j _ hcj
    have hjl : j < vs.length := by
      by_contra hge
      rw [List.getElem?_eq_none (by rw [resolveDiscs_length]; omega)] at hcj2
      cases hcj2
    rw [resolveDiscs_all_implicit vs 0 himp j hjl] at hcj2
    exact Option.some.inj hcj2.symm
  have hcl : g.clauses[k]? = some c := by
    rw [hclauses]
    exact hc'
  have hev := evalClauses_progression g.clauses 0 hprog k c hcl
  show from_i64 g c.2 = some v.ident
  simp only [from_i64]
  rw [hc2, ← h1]
  exact hev

/-- Witness for C3 at the concrete input `pairInput`, second variant. -/
theorem C3_witness :
    ∃ (d : Int) (v : Variant),
      to_i64 pairTo ⟨1, by decide⟩ = some d ∧
      [(⟨"X", .unit, none⟩ : Variant), ⟨"Y", .unit, none⟩][(1 : Nat)]? = some v ∧
      from_i64 pairFrom d = some v.ident :=
  C3_roundtrip pairInput [⟨"X", .unit, none⟩, ⟨"Y", .unit, none⟩]
    pairFrom pairTo rfl (by decide) rfl rfl ⟨1, by decide⟩

/-- C4: For every input that is not an enumeration, or that has a variant
carrying associated data, either generator fails with a fatal diagnostic
naming the type and — for variant-kind violations — an offending variant,
and produces no output declarations (the failure result carries only the
message). -/
theorem C4_invalid_input_rejected (ast : DeriveInput)
    (h : (∀ vs : List Variant, ast.data ≠ .enumData vs) ∨
      (∃ (vs : List Variant) (v : Variant),
        ast.data = .enumData vs ∧ v ∈ vs ∧ v.fields ≠ FieldKind.unit)) :
    ∃ msgF msgT : String,
      from_primitive ast = .error msgF ∧ to_primitive ast = .error msgT ∧
      ast.ident.data <:+: msgF.data ∧ ast.ident.data <:+: msgT.data ∧
      (∀ vs : List Variant, ast.data = .enumData vs →
        (∃ v : Variant, v ∈ vs ∧ v.fields ≠ FieldKind.unit ∧
          v.ident.data <:+: msgF.data) ∧
        (∃ v : Variant, v ∈ vs ∧ v.fields ≠ FieldKind.unit ∧
          v.ident.data <:+: msgT.data)) := by
  obtain ⟨attrs, vis, name, gens, data⟩ := ast
  cases data with
  | enumData vs =>
    have hnu : ∃ v ∈ vs, v.fields ≠ FieldKind.unit := by
      rcases h with h | h
      · exact absurd rfl (h vs)
      · obtain ⟨vs', v, hvs', hv, hnv⟩ := h
        cases hvs'
        exact ⟨v, hv, hnv⟩
    obtain ⟨vF, hvF, hnvF, herrF⟩ := fromPrimCheck_error_of_nonunit name vs hnu
    obtain ⟨vT, hvT, hnvT, herrT⟩ := toPrimCheck_error_of_nonunit name vs hnu
    refine ⟨fromNonUnitMsg name vF.ident, toNonUnitMsg name vT.ident,
      by simp [from_primitive, herrF], by simp [to_primitive, herrT],
      ?_, ?_, ?_⟩
    · exact ⟨"`FromPrimitive` can be applied only to unitary enums, ".data,
        ("::" ++ vF.ident ++ " is either struct or tuple").data,
        by simp [fromNonUnitMsg, String.data_append, List.append_assoc]⟩
    · exact ⟨"`ToPrimitive` can be applied only to unitary enums, ".data,
        ("::" ++ vT.ident ++ " is either struct or tuple").data,
        by simp [toNonUnitMsg, String.data_append, List.append_assoc]⟩
    · intro vs' hvs'
      cases hvs'
      constructor
      · exact ⟨vF, hvF, hnvF,
          ("`FromPrimitive` can be applied only to unitary enums, " ++ name ++ "::").data,
          " is either struct or tuple".data,
          by simp [fromNonUnitMsg, String.data_append, List.append_assoc]⟩
      · exact ⟨vT, hvT, hnvT,
          ("`ToPrimitive` can be applied only to unitary enums, " ++ name ++ "::").data,
          " is either struct or tuple".data,
          by simp [toNonUnitMsg, String.data_append, List.append_assoc]⟩
  | structData =>
    refine ⟨fromNotEnumMsg name, toNotEnumMsg name, rfl, rfl, ?_, ?_, ?_⟩
    · exact ⟨"`FromPrimitive` can be applied only to the enums, ".data,
        " is not an enum".data,
        by simp [fromNotEnumMsg, String.data_append, List.append_assoc]⟩
    · exact ⟨"`ToPrimitive` can be applied only to the enums, ".data,
        " is not an enum".data,
        by simp [toNotEnumMsg, String.data_append, List.append_assoc]⟩
    · intro vs' hvs'
      cases hvs'
  | unionData =>
    refine ⟨fromNotEnumMsg name, toNotEnumMsg name, rfl, rfl, ?_, ?_, ?_⟩
    · exact ⟨"`FromPrimitive` can be applied only to the enums, ".data,
        " is not an enum".data,
        by simp [fromNotEnumMsg, String.data_append, List.append_assoc]⟩
    · exact ⟨"`ToPrimitive` can be applied only to the enums, ".data,
        " is not an enum".data,
        by simp [toNotEnumMsg, String.data_append, List.append_assoc]⟩
    · intro vs' hvs'
      cases hvs'

/-- Witness for C4 at the concrete struct input `structInput`. -/
theorem C4_witness :
    ∃ msgF msgT : String,
      from_primitive structInput = .error msgF ∧
      to_primitive structInput = .error msgT ∧
      structInput.ident.data <:+: msgF.data ∧
      structInput.ident.data <:+: msgT.data ∧
      (∀ vs : List Variant, structInput.data = .enumData vs →
        (∃ v : Variant, v ∈ vs ∧ v.fields ≠ FieldKind.unit ∧
          v.ident.data <:+: msgF.data) ∧
        (∃ v : Variant, v ∈ vs ∧ v.fields ≠ FieldKind.unit ∧
          v.ident.data <:+: msgT.data)) :=
  C4_invalid_input_rejected structInput (Or.inl fun vs hvs => by cases hvs)

/-- C5: For an enumeration with zero variants, `from_primitive` succeeds,
the emitted `from_i64` body is the single unconditional `{ None }` (no
clauses) with the parameter bound to `_` (no reference to the unused
candidate variable), and the conversion returns `None` on every input. -/
theorem C5_zero_variants (attrs : List String) (vis name : String)
    (gens : List String) :
    from_primitive ⟨attrs, vis, name, gens, .enumData []⟩ =
      .ok ⟨dummy_const_name "FromPrimative" name, "_", []⟩ ∧
    ∀ n : Int,
      from_i64 ⟨dummy_const_name "FromPrimative" name, "_", []⟩ n = none :=
  ⟨rfl, fun _ => rfl⟩

/-- C6: The generated `from_u64` is `from_i64` composed with the
two's-complement reinterpretation of the `u64` input: the cast preserves
the value mod 2^64 and lands in the signed 64-bit range; inputs beyond the
signed positive range are silently reinterpreted, so a variant with a
negative discriminant `d` is looked up for the input `d + 2^64`, never
rejected as an error. -/
theorem C6_from_u64_reinterprets (g : FromPrimGen) (n : Nat) (d : Int)
    (hn : n < 2 ^ 64) (hd0 : -(2 ^ 63) ≤ d) (hd1 : d < 0) :
    from_u64 g n = from_i64 g (u64_as_i64 n) ∧
    u64_as_i64 n % 2 ^ 64 = (n : Int) % 2 ^ 64 ∧
    -(2 ^ 63) ≤ u64_as_i64 n ∧ u64_as_i64 n < 2 ^ 63 ∧
    u64_as_i64 (d + 2 ^ 64).toNat = d ∧
    from_u64 g (d + 2 ^ 64).toNat = from_i64 g d := by
  have hcast : u64_as_i64 (d + 2 ^ 64).toNat = d := by
    simp only [u64_as_i64]
    split
    · omega
    · omega
  refine ⟨rfl, ?_, ?_, ?_, hcast, ?_⟩
  · simp only [u64_as_i64]
    split
    · rfl
    · omega
  · simp only [u64_as_i64]
    split <;> omega
  · simp only [u64_as_i64]
    split <;> omega
  · have hdel : from_u64 g (d + 2 ^ 64).toNat =
        from_i64 g (u64_as_i64 (d + 2 ^ 64).toNat) := rfl
    rw [hdel, hcast]

/-- Witness for C6 at `dupFrom`, `n = 3`, `d = -5`. -/
theorem C6_witness :
    from_u64 dupFrom 3 = from_i64 dupFrom (u64_as_i64 3) ∧
    u64_as_i64 3 % 2 ^ 64 = (3 : Int) % 2 ^ 64 ∧
    -(2 ^ 63) ≤ u64_as_i64 3 ∧ u64_as_i64 3 < 2 ^ 63 ∧
    u64_as_i64 ((-5 : Int) + 2 ^ 64).toNat = -5 ∧
    from_u64 dupFrom ((-5 : Int) + 2 ^ 64).toNat = from_i64 dupFrom (-5) :=
  C6_from_u64_reinterprets dupFrom 3 (-5) (by decide) (by decide) (by decide)

/-- C7: The generated `to_u64` is `to_i64` with its contained result
reinterpreted as unsigned 64-bit (`x as u64`, i.e. mod 2^64): a variant
with a negative discriminant `d` yields `Some (d + 2^64)` rather than
`None` or an error. -/
theorem C7_to_u64_reinterprets (t : ToPrimGen) (i : Fin t.arms.length) (d : Int)
    (hd : (t.arms.get i).2 = d) (hd0 : -(2 ^ 63) ≤ d) (hd1 : d < 0) :
    to_u64 t i = (to_i64 t i).map i64_as_u64 ∧
    (i64_as_u64 d : Int) % 2 ^ 64 = d % 2 ^ 64 ∧
    i64_as_u64 d = (d + 2 ^ 64).toNat ∧
    to_u64 t i = some (d + 2 ^ 64).toNat := by
  have hval : i64_as_u64 d = (d + 2 ^ 64).toNat := by
    simp only [i64_as_u64]
    omega
  refine ⟨rfl, ?_, hval, ?_⟩
  · simp only [i64_as_u64]
    omega
  · have hdel : to_u64 t i = (to_i64 t i).map i64_as_u64 := rfl
    rw [hdel]
    simp only [to_i64, Option.map_some']
    rw [hd, hval]

/-- Witness for C7 at `negTo`, variant `M` with discriminant `-5`. -/
theorem C7_witness :
    to_u64 negTo ⟨0, by decide⟩ = (to_i64 negTo ⟨0, by decide⟩).map i64_as_u64 ∧
    (i64_as_u64 (-5) : Int) % 2 ^ 64 = (-5 : Int) % 2 ^ 64 ∧
    i64_as_u64 (-5) = ((-5 : Int) + 2 ^ 64).toNat ∧
    to_u64 negTo ⟨0, by decide⟩ = some ((-5 : Int) + 2 ^ 64).toNat :=
  C7_to_u64_reinterprets negTo ⟨0, by decide⟩ (-5) rfl (by decide) (by decide)

/-- C8 counterexample: the scope identifier is NOT injective on distinct
(capability name, type name) pairs — two type names differing only in
letter case yield the same identifier. -/
theorem C8_counterexample :
    (("FromPrimative", "Foo") : String × String) ≠ ("FromPrimative", "FOO") ∧
    dummy_const_name "FromPrimative" "Foo" = dummy_const_name "FromPrimative" "FOO" :=
  ⟨by decide, rfl⟩

/-- C8 amended: the scope identifier is a deterministic function of the
capability name and the type name (`dummy_const_name` is a function — no
randomness); restricted to the two capability names the crate uses, two
derived identifiers coincide exactly when the capability names are equal
and the type names agree after ASCII uppercasing.  Distinctness therefore
holds only for pairs that remain distinct after uppercasing. -/
theorem C8_amended_scope_name (t₁ t₂ n₁ n₂ : String)
    (h₁ : t₁ = "FromPrimative" ∨ t₁ = "ToPrimative")
    (h₂ : t₂ = "FromPrimative" ∨ t₂ = "ToPrimative") :
    dummy_const_name t₁ n₁ = dummy_const_name t₂ n₂ ↔
      t₁ = t₂ ∧ toUpperAscii n₁ = toUpperAscii n₂ := by
  rcases h₁ with h₁ | h₁ <;> rcases h₂ with h₂ | h₂ <;> subst h₁ <;> subst h₂
  · rw [dummy_const_name_from, dummy_const_name_from, string_append_right_inj]
    constructor
    · intro h
      exact ⟨rfl, h⟩
    · intro h
      exact h.2
  · rw [dummy_const_name_from, dummy_const_name_to]
    constructor
    · intro h
      exact absurd h (fromPrefix_ne_toPrefix _ _)
    · intro h
      exact absurd h.1 (by decide)
  · rw [dummy_const_name_to, dummy_const_name_from]
    constructor
    · intro h
      exact absurd h.symm (fromPrefix_ne_toPrefix _ _)
    · intro h
      exact absurd h.1 (by decide)
  · rw [dummy_const_name_to, dummy_const_name_to, string_append_right_inj]
    constructor
    · intro h
      exact ⟨rfl, h⟩
    · intro h
      exact h.2

/-- Witness for the amended C8 at the two capability names and `Color`. -/
theorem C8_witness :
    dummy_const_name "FromPrimative" "Color" = dummy_const_name "ToPrimative" "Color" ↔
      ("FromPrimative" : String) = "ToPrimative" ∧
        toUpperAscii "Color" = toUpperAscii "Color" :=
  C8_amended_scope_name "FromPrimative" "ToPrimative" "Color" "Color"
    (Or.inl rfl) (Or.inr rfl)

/-- C9: Each generator is a pure function of its input syntax tree: the
outputs (including error diagnostics) depend only on the fields the
generators read (`ident` and `data`), so two invocations on the same type
declaration — even rebuilt fresh, with different attributes, visibility or
generics — produce identical results.  There is no shared or retained
state in the embedding; purity of the Rust code was checked by inspection
(no statics, no I/O). -/
theorem C9_pure_function_of_input (a₁ a₂ : DeriveInput)
    (hid : a₁.ident = a₂.ident) (hdata : a₁.data = a₂.data) :
    from_primitive a₁ = from_primitive a₂ ∧ to_primitive a₁ = to_primitive a₂ := by
  obtain ⟨x₁, v₁, i₁, g₁, d₁⟩ := a₁
  obtain ⟨x₂, v₂, i₂, g₂, d₂⟩ := a₂
  have hid' : i₁ = i₂ := hid
  have hdata' : d₁ = d₂ := hdata
  subst hid'
  subst hdata'
  exact ⟨rfl, rfl⟩

/-- Witness for C9: two syntax trees for the same enum differing in
attributes, visibility and generics. -/
theorem C9_witness :
    from_primitive ⟨["repr_C"], "pub", "Color", ["T"],
        .enumData [⟨"Red", .unit, none⟩]⟩ =
      from_primitive ⟨[], "", "Color", [], .enumData [⟨"Red", .unit, none⟩]⟩ ∧
    to_primitive ⟨["repr_C"], "pub", "Color", ["T"],
        .enumData [⟨"Red", .unit, none⟩]⟩ =
      to_primitive ⟨[], "", "Color", [], .enumData [⟨"Red", .unit, none⟩]⟩ :=
  C9_pure_function_of_input _ _ rfl rfl

/-- C10: When an enumeration contains several data-carrying variants, the
diagnostic of either generator names exactly the first data-carrying
variant in declaration order (the check walks the variants in order and
aborts at the first violation). -/
theorem C10_first_offending_variant_named (ast : DeriveInput) (vs : List Variant)
    (k : Nat) (v : Variant)
    (he : ast.data = .enumData vs)
    (hk : vs[k]? = some v) (hv : v.fields ≠ FieldKind.unit)
    (hfirst : ∀ (j : Nat) (u : Variant), j < k → vs[j]? = some u →
      u.fields = FieldKind.unit) :
    from_primitive ast = .error (fromNonUnitMsg ast.ident v.ident) ∧
    to_primitive ast = .error (toNonUnitMsg ast.ident v.ident) := by
  obtain ⟨attrs, vis, name, gens, data⟩ := ast
  cases data with
  | enumData vs' =>
    cases he
    exact ⟨by simp [from_primitive, fromPrimCheck_error_first name vs k v hk hv hfirst],
      by simp [to_primitive, toPrimCheck_error_first name vs k v hk hv hfirst]⟩
  | structData => cases he
  | unionData => cases he

/-- Witness for C10 at `rgbInput`, whose two variants both carry data:
the diagnostics name `Rgb`, the first one. -/
theorem C10_witness :
    from_primitive rgbInput =
      .error (fromNonUnitMsg rgbInput.ident
        (⟨"Rgb", .unnamed, none⟩ : Variant).ident) ∧
    to_primitive rgbInput =
      .error (toNonUnitMsg rgbInput.ident
        (⟨"Rgb", .unnamed, none⟩ : Variant).ident) :=
  C10_first_offending_variant_named rgbInput
    [⟨"Rgb", .unnamed, none⟩, ⟨"Hsv", .unnamed, none⟩]
    0 ⟨"Rgb", .unnamed, none⟩ rfl rfl (by decide)
    (fun j u hj _ => absurd hj (Nat.not_lt_zero j))
